import Mathlib

/-!
Verification of `inventory_system.py`: an in-memory inventory mapping item
names to quantities, with add/remove/query/report operations and JSON
persistence.

The Python dict is embedded as an insertion-ordered association list
`List (String × Int)`.  `setKey` mirrors `d[k] = v` (replace in place when the
key is present, append otherwise), `eraseKey` mirrors `del d[k]`, `getVal`
mirrors `d.get(k)`.  Python's dynamic typing in `add_item`'s
`isinstance` checks is embedded with the small `PyVal` type; the JSON file
layer is embedded as a map from paths to parsed file contents.
-/

namespace InventorySystem

/-- A Python value as it may be passed to `add_item` for `item` or `qty`:
a text string, a number (quantities are modelled as integers), or `None`. -/
inductive PyVal where
  | str (s : String)
  | num (n : Int)
  | noneVal
deriving DecidableEq

/-- `True` exactly on text values, mirroring `isinstance(x, str)`. -/
def PyVal.isStr : PyVal → Bool
  | .str _ => true
  | _ => false

/-- `True` exactly on numeric values, mirroring `isinstance(x, (int, float))`. -/
def PyVal.isNum : PyVal → Bool
  | .num _ => true
  | _ => false

/-- The inventory: a Python dict from item name to quantity, embedded as an
insertion-ordered association list. -/
abbrev Inv := List (String × Int)

/-- `d.get(key)`: the value stored at the first (in a real dict, only)
occurrence of `key`, if any. -/
def getVal : Inv → String → Option Int
  | [], _ => none
  | (k, v) :: rest, key => if k = key then some v else getVal rest key

/-- `stock_data.get(item, 0)` — the body of the Python `get_qty`. -/
def get_qty (stock_data : Inv) (item : String) : Int :=
  match getVal stock_data item with
  | some v => v
  | none => 0

/-- `item in stock_data`. -/
def containsKey (stock_data : Inv) (item : String) : Bool :=
  (getVal stock_data item).isSome

/-- `d[key] = v`: dict assignment keeps an existing key in place and
appends a fresh key at the end. -/
def setKey : Inv → String → Int → Inv
  | [], key, v => [(key, v)]
  | (k, w) :: rest, key, v =>
      if k = key then (key, v) :: rest else (k, w) :: setKey rest key v

/-- `del d[key]`: drop the entry with key `key` (on a dict, at most one). -/
def eraseKey (d : Inv) (key : String) : Inv :=
  d.filter (fun p => p.1 != key)

/-- `add_item(stock_data, item, qty, logs)` from `inventory_system.py`.
`now` stands for the `datetime.now()` timestamp put in the log entry.  If
`item` is not text or `qty` is not numeric the call only logs a warning and
returns `stock_data` and `logs` unchanged; otherwise it sets
`stock_data[item] = stock_data.get(item, 0) + qty` and appends one log line. -/
def add_item (now : String) (stock_data : Inv) (item qty : PyVal)
    (logs : List String) : Inv × List String :=
  match item, qty with
  | .str s, .num q =>
      (setKey stock_data s (get_qty stock_data s + q),
       logs ++ [now ++ ": Added " ++ toString q ++ " of " ++ s])
  | _, _ => (stock_data, logs)

/-- `remove_item(stock_data, item, qty)` from `inventory_system.py`.  An
absent `item` only logs a warning; otherwise `stock_data[item] -= qty`, and
the entry is deleted when the updated value is `≤ 0`.  (The `try/except`
around the body can never fire on a dict in a single-threaded run, so the
embedding has no fault branch.) -/
def remove_item (stock_data : Inv) (item : String) (qty : Int) : Inv :=
  if containsKey stock_data item then
    let updated := setKey stock_data item (get_qty stock_data item - qty)
    if get_qty updated item ≤ 0 then eraseKey updated item else updated
  else stock_data

/-- `check_low_items(stock_data, threshold)`: the list comprehension
`[item for item, qty in stock_data.items() if qty < threshold]`. -/
def check_low_items (stock_data : Inv) (threshold : Int) : List String :=
  (stock_data.filter (fun p => p.2 < threshold)).map Prod.fst

/-- `check_low_items` called without a threshold, whose Python default is 5. -/
def check_low_items_default (stock_data : Inv) : List String :=
  check_low_items stock_data 5

/-- A parsed JSON document, covering the values `json.load` can return. -/
inductive Json where
  | num (n : Int)
  | str (s : String)
  | bool (b : Bool)
  | null
  | arr (elems : List Json)
  | obj (members : List (String × Json))

/-- What a stored file holds once read: either text that is not valid JSON,
or a successfully parsed JSON document. -/
inductive FileContent where
  | invalid
  | json (doc : Json)

/-- The file system: each path maps to a file's content, or to `none` when no
file exists there. -/
abbrev FS := String → Option FileContent

/-- The file system with no files, the state before any save. -/
def fsEmpty : FS := fun _ => none

/-- The JSON document `json.dump` writes for an inventory dict: an object
whose members are the entries, each value a number. -/
def encodeInv (inv : Inv) : Json :=
  Json.obj (inv.map (fun p => (p.1, Json.num p.2)))

/-- `load_data(file_path)`: return the parsed JSON on success; on
`FileNotFoundError` or `json.JSONDecodeError` log and return `{}` (the empty
object).  The function is total: neither failure case raises. -/
def load_data (fs : FS) (file_path : String) : Json :=
  match fs file_path with
  | none => Json.obj []
  | some .invalid => Json.obj []
  | some (.json data) => data

/-- `save_data(file_path, data)`: overwrite the file at `file_path` with the
JSON serialization of the inventory. -/
def save_data (fs : FS) (file_path : String) (data : Inv) : FS :=
  fun p => if p = file_path then some (.json (encodeInv data)) else fs p

/-- Read one JSON object member list back as an inventory: every value must
be a number. -/
def decodeMembers : List (String × Json) → Option Inv
  | [] => some []
  | (k, Json.num n) :: rest => (decodeMembers rest).map (fun r => (k, n) :: r)
  | _ => none

/-- Read a JSON document back as an inventory dict: it must be an object of
numeric values, as a saved inventory always is. -/
def decodeInv : Json → Option Inv
  | .obj members => decodeMembers members
  | _ => none

/-- The dict invariant claimed by the spec: every stored quantity is
strictly positive. -/
def allPositive (d : Inv) : Bool :=
  d.all (fun p => decide (0 < p.2))

/-- A real dict never holds the same key twice. -/
def NodupKeys (d : Inv) : Prop :=
  (d.map Prod.fst).Nodup

/-- The mutation sequence of `main()` run from a starting inventory, with
`n1, n2, n3` the timestamps of the three `add_item` calls: add apple 10,
add banana −2, add mango 5, remove apple 3, remove orange 1. -/
def exampleSeq (n1 n2 n3 : String) (start : Inv) : Inv × List String :=
  let p1 := add_item n1 start (.str "apple") (.num 10) []
  let p2 := add_item n2 p1.1 (.str "banana") (.num (-2)) p1.2
  let p3 := add_item n3 p2.1 (.str "mango") (.num 5) p2.2
  let s4 := remove_item p3.1 "apple" 3
  let s5 := remove_item s4 "orange" 1
  (s5, p3.2)

/-! Helper lemmas about the dict operations. -/

theorem getVal_setKey_self (d : Inv) (k : String) (v : Int) :
    getVal (setKey d k v) k = some v := by
  induction d with
  | nil => simp [setKey, getVal]
  | cons hd tl ih =>
      by_cases h : hd.1 = k
      · simp [setKey, h, getVal]
      · simp [setKey, h, getVal, ih]

theorem getVal_setKey_ne (d : Inv) (k k' : String) (v : Int) (h : k ≠ k') :
    getVal (setKey d k v) k' = getVal d k' := by
  induction d with
  | nil => simp [setKey, getVal, h]
  | cons hd tl ih =>
      by_cases hk : hd.1 = k
      · simp [setKey, hk, getVal, h]
      · simp [setKey, hk, getVal, ih]

theorem get_qty_setKey_self (d : Inv) (k : String) (v : Int) :
    get_qty (setKey d k v) k = v := by
  simp [get_qty, getVal_setKey_self]

theorem get_qty_setKey_ne (d : Inv) (k k' : String) (v : Int) (h : k ≠ k') :
    get_qty (setKey d k v) k' = get_qty d k' := by
  simp [get_qty, getVal_setKey_ne d k k' v h]

theorem containsKey_setKey_self (d : Inv) (k : String) (v : Int) :
    containsKey (setKey d k v) k = true := by
  simp [containsKey, getVal_setKey_self]

theorem containsKey_setKey_ne (d : Inv) (k k' : String) (v : Int) (h : k ≠ k') :
    containsKey (setKey d k v) k' = containsKey d k' := by
  simp [containsKey, getVal_setKey_ne d k k' v h]

theorem mem_setKey (d : Inv) (k : String) (v : Int) (p : String × Int)
    (hp : p ∈ setKey d k v) : p = (k, v) ∨ p ∈ d := by
  induction d with
  | nil => simpa [setKey] using hp
  | cons hd tl ih =>
      by_cases hk : hd.1 = k
      · simp only [setKey, hk, if_pos rfl] at hp
        rcases List.mem_cons.mp hp with h | h
        · exact Or.inl h
        · exact Or.inr (List.mem_cons_of_mem _ h)
      · simp only [setKey, if_neg hk] at hp
        rcases List.mem_cons.mp hp with h | h
        · exact Or.inr (List.mem_cons.mpr (Or.inl h))
        · rcases ih h with h' | h'
          · exact Or.inl h'
          · exact Or.inr (List.mem_cons_of_mem _ h')

theorem getVal_eraseKey_self (d : Inv) (k : String) :
    getVal (eraseKey d k) k = none := by
  induction d with
  | nil => simp [eraseKey, getVal]
  | cons hd tl ih =>
      by_cases hk : hd.1 = k
      · simpa [eraseKey, List.filter_cons, hk] using ih
      · simpa [eraseKey, List.filter_cons, hk, getVal] using ih

theorem getVal_eraseKey_ne (d : Inv) (k k' : String) (h : k ≠ k') :
    getVal (eraseKey d k) k' = getVal d k' := by
  induction d with
  | nil => simp [eraseKey, getVal]
  | cons hd tl ih =>
      by_cases hk : hd.1 = k
      · have hne : hd.1 ≠ k' := hk ▸ h
        simpa [eraseKey, List.filter_cons, hk, getVal, hne, h] using ih
      · by_cases hk' : hd.1 = k'
        · simp [eraseKey, List.filter_cons, hk, getVal, hk', Ne.symm h]
        · simpa [eraseKey, List.filter_cons, hk, getVal, hk'] using ih

theorem containsKey_eraseKey_self (d : Inv) (k : String) :
    containsKey (eraseKey d k) k = false := by
  simp [containsKey, getVal_eraseKey_self]

theorem mem_eraseKey (d : Inv) (k : String) (p : String × Int)
    (hp : p ∈ eraseKey d k) : p ∈ d ∧ p.1 ≠ k := by
  have := List.mem_filter.mp hp
  exact ⟨this.1, by simpa using this.2⟩

theorem containsKey_iff_getVal (d : Inv) (k : String) :
    containsKey d k = true ↔ ∃ v, getVal d k = some v := by
  unfold containsKey
  cases getVal d k <;> simp

theorem get_qty_of_getVal (d : Inv) (k : String) (v : Int)
    (h : getVal d k = some v) : get_qty d k = v := by
  simp [get_qty, h]

theorem getVal_of_mem_nodup (d : Inv) (k : String) (v : Int)
    (hd : NodupKeys d) (hm : (k, v) ∈ d) : getVal d k = some v := by
  induction d with
  | nil => cases hm
  | cons hd0 tl ih =>
      rcases List.mem_cons.mp hm with h | h
      · simp [getVal, ← h]
      · have hk : hd0.1 ≠ k := by
          intro hkeq
          have : k ∈ tl.map Prod.fst := List.mem_map.mpr ⟨(k, v), h, rfl⟩
          have := (List.nodup_cons.mp hd).1
          exact this (hkeq ▸ List.mem_map.mpr ⟨(k, v), h, rfl⟩)
        have htl : NodupKeys tl := (List.nodup_cons.mp hd).2
        simp [getVal, hk, ih htl h]

theorem mem_of_getVal (d : Inv) (k : String) (v : Int)
    (h : getVal d k = some v) : (k, v) ∈ d := by
  induction d with
  | nil => simp [getVal] at h
  | cons hd0 tl ih =>
      by_cases hk : hd0.1 = k
      · simp only [getVal, if_pos hk] at h
        have hv : hd0.2 = v := by injection h
        have heq : hd0 = (k, v) := Prod.ext_iff.mpr ⟨hk, hv⟩
        rw [heq]
        exact List.mem_cons_self _ _
      · simp only [getVal, if_neg hk] at h
        exact List.mem_cons_of_mem _ (ih h)

theorem get_qty_eraseKey_self (d : Inv) (k : String) :
    get_qty (eraseKey d k) k = 0 := by
  simp [get_qty, getVal_eraseKey_self]

theorem get_qty_eraseKey_ne (d : Inv) (k k' : String) (h : k ≠ k') :
    get_qty (eraseKey d k) k' = get_qty d k' := by
  simp [get_qty, getVal_eraseKey_ne d k k' h]

theorem containsKey_eraseKey_ne (d : Inv) (k k' : String) (h : k ≠ k') :
    containsKey (eraseKey d k) k' = containsKey d k' := by
  simp [containsKey, getVal_eraseKey_ne d k k' h]

theorem remove_item_eq_of_contains (inv : Inv) (item : String) (qty : Int)
    (hc : containsKey inv item = true) :
    remove_item inv item qty =
      if get_qty (setKey inv item (get_qty inv item - qty)) item ≤ 0 then
        eraseKey (setKey inv item (get_qty inv item - qty)) item
      else setKey inv item (get_qty inv item - qty) := by
  simp [remove_item, hc]

theorem remove_item_eq_of_absent (inv : Inv) (item : String) (qty : Int)
    (hc : ¬ containsKey inv item = true) :
    remove_item inv item qty = inv := by
  simp [remove_item, hc]

theorem decodeMembers_encode (inv : Inv) :
    decodeMembers (inv.map (fun p => (p.1, Json.num p.2))) = some inv := by
  induction inv with
  | nil => rfl
  | cons hd tl ih => simp [decodeMembers, ih]

/-! The claims. -/

/-- C1: for every inventory, text name and numeric qty, adding `(name, qty)`
and then querying `name` returns the old quantity plus `qty`, where an absent
name queries as 0. -/
theorem add_then_get_qty (now : String) (inv : Inv) (logs : List String)
    (name : String) (qty : Int) :
    get_qty (add_item now inv (.str name) (.num qty) logs).1 name
      = get_qty inv name + qty := by
  simp [add_item, get_qty_setKey_self]

/-- C5: calling `add_item` with a name that is not text or a qty that is not
numeric returns the inventory unchanged and the log unchanged. -/
theorem add_item_invalid_unchanged (now : String) (inv : Inv)
    (item qty : PyVal) (logs : List String)
    (h : item.isStr = false ∨ qty.isNum = false) :
    add_item now inv item qty logs = (inv, logs) := by
  cases item with
  | str s =>
      cases qty with
      | num n => simp [PyVal.isStr, PyVal.isNum] at h
      | str s2 => rfl
      | noneVal => rfl
  | num n => cases qty <;> rfl
  | noneVal => cases qty <;> rfl

/-- Witness for C5 at `item = None`, `qty = 1` on the inventory
`{"a": 1}` with an empty log. -/
theorem add_item_invalid_unchanged_witness :
    ((PyVal.noneVal).isStr = false ∨ (PyVal.num 1).isNum = false)
    ∧ add_item "t" [("a", 1)] PyVal.noneVal (PyVal.num 1) [] = ([("a", 1)], []) :=
  ⟨Or.inl rfl,
   add_item_invalid_unchanged "t" [("a", 1)] PyVal.noneVal (PyVal.num 1) []
     (Or.inl rfl)⟩

/-- C6: `remove_item` on a name absent from the inventory returns the
inventory unchanged, for any qty. -/
theorem remove_item_absent_unchanged (inv : Inv) (name : String) (qty : Int)
    (h : containsKey inv name = false) :
    remove_item inv name qty = inv := by
  simp [remove_item, h]

/-- Witness for C6: removing the absent item "b" from `{"a": 1}`. -/
theorem remove_item_absent_unchanged_witness :
    containsKey [("a", 1)] "b" = false
    ∧ remove_item [("a", 1)] "b" 5 = [("a", 1)] :=
  ⟨rfl, remove_item_absent_unchanged [("a", 1)] "b" 5 rfl⟩

/-- C7: `load_data` returns the empty inventory object both when no file
exists at the path and when the file holds invalid JSON; as a total function
it raises in neither case. -/
theorem load_data_missing_or_invalid (fs : FS) (path : String)
    (h : fs path = none ∨ fs path = some FileContent.invalid) :
    load_data fs path = Json.obj [] := by
  rcases h with h | h <;> simp [load_data, h]

/-- Witness for C7: loading from the empty file system. -/
theorem load_data_missing_or_invalid_witness :
    (fsEmpty "inventory.json" = none
      ∨ fsEmpty "inventory.json" = some FileContent.invalid)
    ∧ load_data fsEmpty "inventory.json" = Json.obj [] :=
  ⟨Or.inl rfl,
   load_data_missing_or_invalid fsEmpty "inventory.json" (Or.inl rfl)⟩

/-- C9: from the empty inventory, the `main()` sequence (add apple 10, add
banana −2, add mango 5, remove apple 3, remove orange 1) yields exactly
`{apple: 7, banana: -2, mango: 5}`; on that result `check_low_items` with
threshold 5 returns exactly `["banana"]`, and `get_qty` of "apple" is 7. -/
theorem main_example_run (n1 n2 n3 : String) :
    (exampleSeq n1 n2 n3 []).1 = [("apple", 7), ("banana", -2), ("mango", 5)]
    ∧ check_low_items (exampleSeq n1 n2 n3 []).1 5 = ["banana"]
    ∧ get_qty (exampleSeq n1 n2 n3 []).1 "apple" = 7 :=
  ⟨rfl, rfl, rfl⟩

/-- C4: on an inventory containing `name`, after `remove_item` the name is
present iff the reduced quantity is strictly positive: when
`stored − qty ≤ 0` the entry is gone (and queries as 0), and when
`stored − qty > 0` it is kept with exactly the reduced value. -/
theorem remove_item_present_cases (inv : Inv) (name : String) (qty : Int)
    (h : containsKey inv name = true) :
    containsKey (remove_item inv name qty) name
        = decide (0 < get_qty inv name - qty)
    ∧ get_qty (remove_item inv name qty) name
        = if 0 < get_qty inv name - qty then get_qty inv name - qty else 0 := by
  have hset := get_qty_setKey_self inv name (get_qty inv name - qty)
  rw [remove_item_eq_of_contains inv name qty h]
  by_cases hpos : 0 < get_qty inv name - qty
  · have hle : ¬ get_qty (setKey inv name (get_qty inv name - qty)) name ≤ 0 := by
      rw [hset]; omega
    rw [if_neg hle, if_pos hpos]
    exact ⟨by simp [containsKey_setKey_self, hpos], hset⟩
  · have hle : get_qty (setKey inv name (get_qty inv name - qty)) name ≤ 0 := by
      rw [hset]; omega
    rw [if_pos hle, if_neg hpos]
    exact ⟨by simp [containsKey_eraseKey_self, hpos], get_qty_eraseKey_self _ _⟩

/-- Witness for C4 on `{"a": 5}`: removing 2 keeps the entry at 3. -/
theorem remove_item_present_cases_witness :
    containsKey [("a", 5)] "a" = true
    ∧ containsKey (remove_item [("a", 5)] "a" 2) "a"
        = decide (0 < get_qty [("a", 5)] "a" - 2)
    ∧ get_qty (remove_item [("a", 5)] "a" 2) "a"
        = if 0 < get_qty [("a", 5)] "a" - 2 then get_qty [("a", 5)] "a" - 2 else 0 :=
  ⟨rfl,
   (remove_item_present_cases [("a", 5)] "a" 2 rfl).1,
   (remove_item_present_cases [("a", 5)] "a" 2 rfl).2⟩

/-- C10: `remove_item` on key `a` leaves every other key `b` untouched — its
queried quantity and its membership are both unchanged, for any qty. -/
theorem remove_item_frame (inv : Inv) (a b : String) (qty : Int) (h : a ≠ b) :
    get_qty (remove_item inv a qty) b = get_qty inv b
    ∧ containsKey (remove_item inv a qty) b = containsKey inv b := by
  by_cases hc : containsKey inv a = true
  · rw [remove_item_eq_of_contains inv a qty hc]
    by_cases hle : get_qty (setKey inv a (get_qty inv a - qty)) a ≤ 0
    · rw [if_pos hle]
      constructor
      · rw [get_qty_eraseKey_ne _ _ _ h, get_qty_setKey_ne _ _ _ _ h]
      · rw [containsKey_eraseKey_ne _ _ _ h, containsKey_setKey_ne _ _ _ _ h]
    · rw [if_neg hle]
      exact ⟨get_qty_setKey_ne _ _ _ _ h, containsKey_setKey_ne _ _ _ _ h⟩
  · rw [remove_item_eq_of_absent inv a qty hc]
    exact ⟨rfl, rfl⟩

/-- Witness for C10 on `{"a": 5, "b": 3}`: removing 10 of "a" deletes "a"
but leaves "b" at 3 and present. -/
theorem remove_item_frame_witness :
    ("a" : String) ≠ "b"
    ∧ get_qty (remove_item [("a", 5), ("b", 3)] "a" 10) "b"
        = get_qty [("a", 5), ("b", 3)] "b"
    ∧ containsKey (remove_item [("a", 5), ("b", 3)] "a" 10) "b"
        = containsKey [("a", 5), ("b", 3)] "b" :=
  ⟨by decide,
   (remove_item_frame [("a", 5), ("b", 3)] "a" "b" 10 (by decide)).1,
   (remove_item_frame [("a", 5), ("b", 3)] "a" "b" 10 (by decide)).2⟩

/-- C2 counterexample: `add_item` does not preserve the strictly-positive
invariant — from the empty inventory, which satisfies it, adding "a" with
quantity −2 produces `{"a": -2}`, which violates it. -/
theorem add_item_breaks_invariant :
    allPositive [] = true
    ∧ allPositive (add_item "t" [] (PyVal.str "a") (PyVal.num (-2)) []).1 = false :=
  ⟨rfl, rfl⟩

/-- C2 (amended): `remove_item` preserves the invariant that every stored
quantity is strictly positive; `add_item` does not (it accepts negative and
zero quantities and never deletes). -/
theorem remove_item_preserves_allPositive (inv : Inv) (item : String)
    (qty : Int) (h : allPositive inv = true) :
    allPositive (remove_item inv item qty) = true := by
  have hmem : ∀ p ∈ inv, 0 < p.2 := by
    intro p hp
    simpa using List.all_eq_true.mp h p hp
  by_cases hc : containsKey inv item = true
  · rw [remove_item_eq_of_contains inv item qty hc]
    by_cases hle : get_qty (setKey inv item (get_qty inv item - qty)) item ≤ 0
    · rw [if_pos hle]
      refine List.all_eq_true.mpr ?_
      intro p hp
      obtain ⟨hpm, hpne⟩ := mem_eraseKey _ _ _ hp
      rcases mem_setKey _ _ _ _ hpm with he | hin
      · exact absurd (show p.1 = item by rw [he]) hpne
      · simpa using hmem p hin
    · rw [if_neg hle]
      refine List.all_eq_true.mpr ?_
      intro p hp
      rcases mem_setKey _ _ _ _ hp with he | hin
      · have hpos : 0 < get_qty inv item - qty := by
          rw [get_qty_setKey_self] at hle; omega
        rw [he]
        simpa using hpos
      · simpa using hmem p hin
  · rw [remove_item_eq_of_absent inv item qty hc]
    exact h

/-- Witness for the amended C2: `{"a": 1}` satisfies the invariant and so
does the result of removing 1 of "a" (the entry is deleted, not zeroed). -/
theorem remove_item_preserves_allPositive_witness :
    allPositive [("a", 1)] = true
    ∧ allPositive (remove_item [("a", 1)] "a" 1) = true :=
  ⟨rfl, remove_item_preserves_allPositive [("a", 1)] "a" 1 rfl⟩

/-- C8: `check_low_items` returns exactly the stored names whose quantity is
strictly below the threshold — a name is in the result iff it is stored with
quantity `< threshold` — as a sublist of the keys in the mapping's iteration
order, and the call without a threshold uses the default 5. -/
theorem check_low_items_spec (inv : Inv) (t : Int) (name : String)
    (h : NodupKeys inv) :
    (name ∈ check_low_items inv t
      ↔ containsKey inv name = true ∧ get_qty inv name < t)
    ∧ List.Sublist (check_low_items inv t) (inv.map Prod.fst)
    ∧ check_low_items_default inv = check_low_items inv 5 := by
  refine ⟨⟨?_, ?_⟩, ?_, rfl⟩
  · intro hm
    obtain ⟨p, hpf, hpe⟩ := List.mem_map.mp hm
    obtain ⟨hpm, hpt⟩ := List.mem_filter.mp hpf
    have hv : getVal inv name = some p.2 := by
      subst hpe
      exact getVal_of_mem_nodup inv p.1 p.2 h (by simpa using hpm)
    refine ⟨(containsKey_iff_getVal inv name).mpr ⟨p.2, hv⟩, ?_⟩
    rw [get_qty_of_getVal inv name p.2 hv]
    simpa using hpt
  · rintro ⟨hck, hqt⟩
    obtain ⟨v, hv⟩ := (containsKey_iff_getVal inv name).mp hck
    have hm : (name, v) ∈ inv := mem_of_getVal inv name v hv
    have hq : get_qty inv name = v := get_qty_of_getVal inv name v hv
    refine List.mem_map.mpr ⟨(name, v), List.mem_filter.mpr ⟨hm, ?_⟩, rfl⟩
    simpa using hq ▸ hqt
  · exact List.Sublist.map Prod.fst (List.filter_sublist inv)

/-- Witness for C8 on `{"a": 1, "b": 9}` at threshold 5, querying "a". -/
theorem check_low_items_spec_witness :
    NodupKeys [("a", 1), ("b", 9)]
    ∧ (("a" : String) ∈ check_low_items [("a", 1), ("b", 9)] 5
        ↔ containsKey [("a", 1), ("b", 9)] "a" = true
          ∧ get_qty [("a", 1), ("b", 9)] "a" < 5)
    ∧ List.Sublist (check_low_items [("a", 1), ("b", 9)] 5)
        ([("a", 1), ("b", 9)].map Prod.fst)
    ∧ check_low_items_default [("a", 1), ("b", 9)]
        = check_low_items [("a", 1), ("b", 9)] 5 :=
  ⟨by simp [NodupKeys],
   check_low_items_spec [("a", 1), ("b", 9)] 5 "a" (by simp [NodupKeys])⟩

/-- C3: saving an inventory of text-keyed numeric values to a path and then
loading that path reproduces the inventory exactly: the loaded JSON document
decodes back to the very same inventory. -/
theorem save_then_load_roundtrip (fs : FS) (path : String) (inv : Inv)
    (h : NodupKeys inv) :
    decodeInv (load_data (save_data fs path inv) path) = some inv := by
  simp [load_data, save_data, decodeInv, encodeInv, decodeMembers_encode]

/-- Witness for C3: round-tripping `{"apple": 3}` through the default path
on the empty file system. -/
theorem save_then_load_roundtrip_witness :
    NodupKeys [("apple", 3)]
    ∧ decodeInv (load_data (save_data fsEmpty "inventory.json" [("apple", 3)])
        "inventory.json") = some [("apple", 3)] :=
  ⟨by simp [NodupKeys],
   save_then_load_roundtrip fsEmpty "inventory.json" [("apple", 3)]
     (by simp [NodupKeys])⟩

end InventorySystem
